import Mathlib

/-!
Shallow embedding of the core of `simple_tic_tac_toe_commented.py`:
the 9-cell board, the winner test `is_winner`, the three computer
strategies `bfs`, `dfs` and `astar` (with the board threaded explicitly
through their probe-and-undo phases), the terminal-status evaluation
performed by `check_end`, and the human-move handler `player_click`.
-/

namespace TicTacToe

/-- A cell of the 3x3 board: the empty string, the human mark X, or the computer mark O. -/
inductive Cell where
  | empty
  | X
  | O
deriving DecidableEq

/-- The board `self.board`: nine cells addressed by indices 0..8 in row-major order. -/
def Board : Type := Fin 9 → Cell

instance : DecidableEq Board := inferInstanceAs (DecidableEq (Fin 9 → Cell))

/-- The board with all nine cells empty, as built in `__init__` and in `rematch`/`reset`. -/
def emptyBoard : Board := fun _ => Cell.empty

/-- Build a board from a row-major list of cells; out-of-range entries default to empty. -/
def boardOfCells (l : List Cell) : Board := fun i => l.getD i.val Cell.empty

/-- The assignment `self.board[i] = m`. -/
def place (b : Board) (i : Fin 9) (m : Cell) : Board := Function.update b i m

/-- The eight winning triples `wins` of `is_winner`: three rows, three columns, two diagonals. -/
def wins : List (List (Fin 9)) :=
  [[0, 1, 2], [3, 4, 5], [6, 7, 8],
   [0, 3, 6], [1, 4, 7], [2, 5, 8],
   [0, 4, 8], [2, 4, 6]]

/-- `is_winner(player)`: true iff some combo in `wins` has all three cells equal to `player`. -/
def is_winner (b : Board) (player : Cell) : Bool :=
  wins.any fun combo => combo.all fun i => decide (b i = player)

/-- The draw test `if not in self.board` of `check_end`: true iff no cell is empty. -/
def isFull (b : Board) : Bool := decide (∀ i : Fin 9, ¬ b i = Cell.empty)

/-- The shared probe-and-undo loop of phases 1 and 2 of all three strategies:
walk the scan order; at each empty index, temporarily place `mark`, test
`is_winner mark`, undo the placement, and return the first index whose probe
wins. The mutated board is threaded through and returned alongside the result. -/
def try_win (b : Board) (mark : Cell) : List (Fin 9) → Option (Fin 9) × Board
  | [] => (none, b)
  | i :: rest =>
    if b i = Cell.empty then
      if is_winner (place b i mark) mark then
        (some i, place (place b i mark) i Cell.empty)
      else
        try_win (place (place b i mark) i Cell.empty) mark rest
    else
      try_win b mark rest

/-- The natural scan order `range(9)` used by `bfs` and `astar`. -/
def natOrder : List (Fin 9) := [0, 1, 2, 3, 4, 5, 6, 7, 8]

/-- The corner list `[0, 2, 6, 8]` of the `bfs` fallback. -/
def corners : List (Fin 9) := [0, 2, 6, 8]

/-- The fixed priority list `[4, 0, 2, 6, 8, 1, 3, 5, 7]` of `dfs`. -/
def priority : List (Fin 9) := [4, 0, 2, 6, 8, 1, 3, 5, 7]

/-- `bfs()`: win-now probe in natural order, then block-now probe in natural
order, then the fallback: center if empty, else first empty corner, else the
first empty index, else the implicit Python `None`. -/
def bfs (b : Board) : Option (Fin 9) × Board :=
  match try_win b Cell.O natOrder with
  | (some i, b1) => (some i, b1)
  | (none, b1) =>
    match try_win b1 Cell.X natOrder with
    | (some i, b2) => (some i, b2)
    | (none, b2) =>
      if b2 4 = Cell.empty then (some 4, b2)
      else
        match corners.find? fun c => decide (b2 c = Cell.empty) with
        | some c => (some c, b2)
        | none =>
          match natOrder.find? fun i => decide (b2 i = Cell.empty) with
          | some i => (some i, b2)
          | none => (none, b2)

/-- `dfs()`: win-now probe in priority order, then block-now probe in priority
order, then the fallback: first empty index in the priority list, else the
implicit Python `None`. -/
def dfs (b : Board) : Option (Fin 9) × Board :=
  match try_win b Cell.O priority with
  | (some i, b1) => (some i, b1)
  | (none, b1) =>
    match try_win b1 Cell.X priority with
    | (some i, b2) => (some i, b2)
    | (none, b2) =>
      match priority.find? fun i => decide (b2 i = Cell.empty) with
      | some i => (some i, b2)
      | none => (none, b2)

/-- The static weight table `position_value = [3, 2, 3, 2, 4, 2, 3, 2, 3]` of `astar`. -/
def position_value : List Nat := [3, 2, 3, 2, 4, 2, 3, 2, 3]

/-- The list built by step 3 of `astar`: one pair `(position_value[i], i)` for
each empty index `i`, in natural index order. -/
def scores (b : Board) : List (Nat × Fin 9) :=
  ((List.finRange 9).filter fun i => decide (b i = Cell.empty)).map
    fun i => (position_value.getD i.val 0, i)

/-- The descending lexicographic order in which `scores.sort(reverse=True)`
arranges the score pairs: higher score first, and for equal scores the higher
index first (Python compares the tuples `(score, i)` lexicographically). -/
def scoreGe (a c : Nat × Fin 9) : Prop :=
  c.1 < a.1 ∨ (a.1 = c.1 ∧ c.2.val ≤ a.2.val)

instance : DecidableRel scoreGe := fun a c =>
  inferInstanceAs (Decidable (c.1 < a.1 ∨ (a.1 = c.1 ∧ c.2.val ≤ a.2.val)))

instance : IsTotal (Nat × Fin 9) scoreGe :=
  ⟨by intro a c; unfold scoreGe; omega⟩

instance : IsTrans (Nat × Fin 9) scoreGe :=
  ⟨by intro a c d; unfold scoreGe; omega⟩

/-- `astar()`: win-now probe, block-now probe (both in natural order), then the
heuristic fallback: build `scores`, sort it in descending order, and return the
index of the first pair; if `scores` is empty, the implicit Python `None`. -/
def astar (b : Board) : Option (Fin 9) × Board :=
  match try_win b Cell.O natOrder with
  | (some i, b1) => (some i, b1)
  | (none, b1) =>
    match try_win b1 Cell.X natOrder with
    | (some i, b2) => (some i, b2)
    | (none, b2) =>
      match List.insertionSort scoreGe (scores b2) with
      | [] => (none, b2)
      | (_, i) :: _ => (some i, b2)

/-- The four game outcomes distinguished by the branch structure of `check_end`. -/
inductive GameStatus where
  | InProgress
  | HumanWon
  | ComputerWon
  | Draw
deriving DecidableEq

/-- The status evaluation of `check_end`: the human-win test comes first, then
the computer-win test, then the draw test on a full board, else the game is
still in progress (`check_end` returns False). -/
def check_end (b : Board) : GameStatus :=
  if is_winner b Cell.X then GameStatus.HumanWon
  else if is_winner b Cell.O then GameStatus.ComputerWon
  else if isFull b then GameStatus.Draw
  else GameStatus.InProgress

/-- The game state carried by the controller: the board and the `game_over` flag. -/
structure GameState where
  board : Board
  game_over : Bool
deriving DecidableEq

/-- `player_click(pos)`: if the cell is empty and the game is not over, place
the human mark X, re-evaluate the status (setting `game_over` when terminal),
and schedule a computer move exactly when the game continues; otherwise do
nothing. The boolean of the result records whether `ai_turn` was scheduled. -/
def player_click (s : GameState) (pos : Fin 9) : GameState × Bool :=
  if s.board pos = Cell.empty ∧ s.game_over = false then
    let b1 := place s.board pos Cell.X
    let over := decide (check_end b1 ≠ GameStatus.InProgress)
    (⟨b1, over⟩, !over)
  else
    (s, false)

/-- The turn alternation of the game: after a mark moves, the other mark moves. -/
def other : Cell → Cell
  | Cell.X => Cell.O
  | Cell.O => Cell.X
  | Cell.empty => Cell.empty

/-- The boards reachable from the empty board by alternating legal play:
`Reachable b m` says that board `b` can arise with mark `m` to move, where each
move occupies an empty cell and no move is made once `check_end` reports a
terminal status. -/
inductive Reachable : Board → Cell → Prop where
  | init : Reachable emptyBoard Cell.X
  | move (b : Board) (m : Cell) (i : Fin 9) :
      Reachable b m → check_end b = GameStatus.InProgress → b i = Cell.empty →
      Reachable (place b i m) (other m)

/-! Helper lemmas about the probe-and-undo loop and the winner test. -/

/-- Undoing a hypothetical placement on an empty cell restores the board. -/
theorem place_place_empty {b : Board} {i : Fin 9} {m : Cell} (h : b i = Cell.empty) :
    place (place b i m) i Cell.empty = b := by
  unfold place
  rw [Function.update_idem, ← h, Function.update_eq_self]

/-- The probe-and-undo loop returns the board exactly as it found it. -/
theorem try_win_board (m : Cell) : ∀ (order : List (Fin 9)) (b : Board),
    (try_win b m order).2 = b
  | [], _ => rfl
  | i :: rest, b => by
    unfold try_win
    by_cases h : b i = Cell.empty
    · rw [if_pos h]
      by_cases hw : is_winner (place b i m) m = true
      · rw [if_pos hw]
        exact place_place_empty h
      · rw [if_neg hw, place_place_empty h]
        exact try_win_board m rest b
    · rw [if_neg h]
      exact try_win_board m rest b

/-- When the probe loop returns an index, that index is in the scan order, is
empty, and its probe wins. -/
theorem try_win_some (m : Cell) : ∀ (order : List (Fin 9)) (b : Board) (i : Fin 9),
    (try_win b m order).1 = some i →
    i ∈ order ∧ b i = Cell.empty ∧ is_winner (place b i m) m = true
  | [], _, _ => by
    intro h
    exact absurd h (by simp [try_win])
  | j :: rest, b, i => by
    intro h
    unfold try_win at h
    by_cases he : b j = Cell.empty
    · rw [if_pos he] at h
      by_cases hw : is_winner (place b j m) m = true
      · rw [if_pos hw] at h
        have hji : j = i := Option.some.inj h
        subst hji
        exact ⟨List.mem_cons_self _ _, he, hw⟩
      · rw [if_neg hw, place_place_empty he] at h
        obtain ⟨h1, h2, h3⟩ := try_win_some m rest b i h
        exact ⟨List.mem_cons_of_mem _ h1, h2, h3⟩
    · rw [if_neg he] at h
      obtain ⟨h1, h2, h3⟩ := try_win_some m rest b i h
      exact ⟨List.mem_cons_of_mem _ h1, h2, h3⟩

/-- The probe loop returns no index exactly when no empty index of the scan
order has a winning probe. -/
theorem try_win_none (m : Cell) : ∀ (order : List (Fin 9)) (b : Board),
    (try_win b m order).1 = none ↔
    ∀ i ∈ order, b i = Cell.empty → is_winner (place b i m) m = false
  | [], b => by simp [try_win]
  | j :: rest, b => by
    unfold try_win
    by_cases he : b j = Cell.empty
    · rw [if_pos he]
      by_cases hw : is_winner (place b j m) m = true
      · rw [if_pos hw]
        constructor
        · intro h
          exact absurd h (by simp)
        · intro h
          have := h j (List.mem_cons_self _ _) he
          rw [hw] at this
          cases this
      · rw [if_neg hw, place_place_empty he, try_win_none m rest b]
        constructor
        · intro h i hi hie
          rcases List.mem_cons.mp hi with rfl | hi2
          · simpa using hw
          · exact h i hi2 hie
        · intro h i hi hie
          exact h i (List.mem_cons_of_mem _ hi) hie
    · rw [if_neg he, try_win_none m rest b]
      constructor
      · intro h i hi hie
        rcases List.mem_cons.mp hi with rfl | hi2
        · exact absurd hie he
        · exact h i hi2 hie
      · intro h i hi hie
        exact h i (List.mem_cons_of_mem _ hi) hie

/-- If some index of the scan order is empty with a winning probe, the probe
loop returns an index, which is empty with a winning probe. -/
theorem try_win_finds (b : Board) (m : Cell) (order : List (Fin 9)) (w : Fin 9)
    (hmem : w ∈ order) (hw : b w = Cell.empty)
    (hwin : is_winner (place b w m) m = true) :
    ∃ j, (try_win b m order).1 = some j ∧ b j = Cell.empty ∧
      is_winner (place b j m) m = true := by
  cases e : (try_win b m order).1 with
  | none =>
    have := (try_win_none m order b).mp e w hmem hw
    rw [hwin] at this
    cases this
  | some j =>
    obtain ⟨-, h2, h3⟩ := try_win_some m order b j e
    exact ⟨j, rfl, h2, h3⟩

/-- Every index occurs in the natural scan order. -/
theorem natOrder_mem (i : Fin 9) : i ∈ natOrder := by
  fin_cases i <;> decide

/-- Every index occurs in the priority list of `dfs`. -/
theorem priority_mem (i : Fin 9) : i ∈ priority := by
  fin_cases i <;> decide

/-- The winner test in propositional form: some combo of `wins` is uniform. -/
theorem is_winner_iff_exists (b : Board) (p : Cell) :
    is_winner b p = true ↔ ∃ combo ∈ wins, ∀ i ∈ combo, b i = p := by
  unfold is_winner
  simp [List.any_eq_true, List.all_eq_true]

/-- Placing mark `m` cannot create a win for a different mark `p`: any `p`-win
of the updated board was already a `p`-win of the original board. -/
theorem is_winner_place_of_ne {b : Board} {i : Fin 9} {m p : Cell} (hp : p ≠ m)
    (h : is_winner (place b i m) p = true) : is_winner b p = true := by
  rw [is_winner_iff_exists] at h ⊢
  obtain ⟨combo, hc, hall⟩ := h
  refine ⟨combo, hc, fun j hj => ?_⟩
  have hcj := hall j hj
  by_cases hij : j = i
  · subst hij
    rw [place, Function.update_same] at hcj
    exact absurd hcj.symm hp
  · rw [place, Function.update_noteq hij] at hcj
    exact hcj

/-- An in-progress status means neither mark has a winning line. -/
theorem in_progress_no_winner {b : Board}
    (h : check_end b = GameStatus.InProgress) :
    is_winner b Cell.X = false ∧ is_winner b Cell.O = false := by
  unfold check_end at h
  by_cases hX : is_winner b Cell.X = true
  · rw [if_pos hX] at h
    cases h
  · rw [if_neg hX] at h
    by_cases hO : is_winner b Cell.O = true
    · rw [if_pos hO] at h
      cases h
    · exact ⟨by simpa using hX, by simpa using hO⟩

/-- The full-board test in propositional form. -/
theorem isFull_iff {b : Board} : isFull b = true ↔ ∀ i : Fin 9, ¬ b i = Cell.empty := by
  unfold isFull
  exact decide_eq_true_iff

/-! Phase and fallback lemmas for the three strategies. -/

/-- If the win-now probe of `bfs` hits, `bfs` returns its index. -/
theorem bfs_phase1 (b : Board) (j : Fin 9)
    (h : (try_win b Cell.O natOrder).1 = some j) : (bfs b).1 = some j := by
  unfold bfs
  split
  next i b1 heq =>
    rw [heq] at h
    exact h
  next b1 heq =>
    rw [heq] at h
    simp at h

/-- If the win-now probe of `bfs` misses and the block-now probe hits, `bfs`
returns the blocking index. -/
theorem bfs_phase2 (b : Board) (j : Fin 9)
    (h1 : (try_win b Cell.O natOrder).1 = none)
    (h2s : (try_win b Cell.X natOrder).1 = some j) : (bfs b).1 = some j := by
  unfold bfs
  split
  next i b1 heq =>
    rw [heq] at h1
    simp at h1
  next b1 heq =>
    have hb : b1 = b := by
      have hB := try_win_board Cell.O natOrder b
      rw [heq] at hB
      exact hB
    subst b1
    split
    next i b2 heq2 =>
      rw [heq2] at h2s
      exact h2s
    next b2 heq2 =>
      rw [heq2] at h2s
      simp at h2s

/-- When both probes of `bfs` miss, `bfs` returns the strategic fallback:
center if empty, else the first empty corner, else the first empty index. -/
theorem bfs_fallback (b : Board)
    (h1 : (try_win b Cell.O natOrder).1 = none)
    (h2 : (try_win b Cell.X natOrder).1 = none) :
    (bfs b).1 = (if b 4 = Cell.empty then some (4 : Fin 9)
      else match corners.find? fun c => decide (b c = Cell.empty) with
        | some c => some c
        | none => natOrder.find? fun i => decide (b i = Cell.empty)) := by
  unfold bfs
  split
  next i b1 heq =>
    rw [heq] at h1
    simp at h1
  next b1 heq =>
    have hb : b1 = b := by
      have hB := try_win_board Cell.O natOrder b
      rw [heq] at hB
      exact hB
    subst b1
    split
    next i b2 heq2 =>
      rw [heq2] at h2
      simp at h2
    next b2 heq2 =>
      have hb2 : b2 = b := by
        have hB := try_win_board Cell.X natOrder b
        rw [heq2] at hB
        exact hB
      subst b2
      by_cases h4 : b 4 = Cell.empty
      · rw [if_pos h4, if_pos h4]
      · rw [if_neg h4, if_neg h4]
        cases e3 : corners.find? fun c => decide (b c = Cell.empty) with
        | some c => rfl
        | none =>
          cases e4 : natOrder.find? fun i => decide (b i = Cell.empty) with
          | some i => rfl
          | none => rfl

/-- If the win-now probe of `dfs` hits, `dfs` returns its index. -/
theorem dfs_phase1 (b : Board) (j : Fin 9)
    (h : (try_win b Cell.O priority).1 = some j) : (dfs b).1 = some j := by
  unfold dfs
  split
  next i b1 heq =>
    rw [heq] at h
    exact h
  next b1 heq =>
    rw [heq] at h
    simp at h

/-- If the win-now probe of `dfs` misses and the block-now probe hits, `dfs`
returns the blocking index. -/
theorem dfs_phase2 (b : Board) (j : Fin 9)
    (h1 : (try_win b Cell.O priority).1 = none)
    (h2s : (try_win b Cell.X priority).1 = some j) : (dfs b).1 = some j := by
  unfold dfs
  split
  next i b1 heq =>
    rw [heq] at h1
    simp at h1
  next b1 heq =>
    have hb : b1 = b := by
      have hB := try_win_board Cell.O priority b
      rw [heq] at hB
      exact hB
    subst b1
    split
    next i b2 heq2 =>
      rw [heq2] at h2s
      exact h2s
    next b2 heq2 =>
      rw [heq2] at h2s
      simp at h2s

/-- When both probes of `dfs` miss, `dfs` returns the first empty index of its
priority list. -/
theorem dfs_fallback (b : Board)
    (h1 : (try_win b Cell.O priority).1 = none)
    (h2 : (try_win b Cell.X priority).1 = none) :
    (dfs b).1 = priority.find? fun i => decide (b i = Cell.empty) := by
  unfold dfs
  split
  next i b1 heq =>
    rw [heq] at h1
    simp at h1
  next b1 heq =>
    have hb : b1 = b := by
      have hB := try_win_board Cell.O priority b
      rw [heq] at hB
      exact hB
    subst b1
    split
    next i b2 heq2 =>
      rw [heq2] at h2
      simp at h2
    next b2 heq2 =>
      have hb2 : b2 = b := by
        have hB := try_win_board Cell.X priority b
        rw [heq2] at hB
        exact hB
      subst b2
      cases e3 : priority.find? fun i => decide (b i = Cell.empty) with
      | some i => rfl
      | none => rfl

/-- If the win-now probe of `astar` hits, `astar` returns its index. -/
theorem astar_phase1 (b : Board) (j : Fin 9)
    (h : (try_win b Cell.O natOrder).1 = some j) : (astar b).1 = some j := by
  unfold astar
  split
  next i b1 heq =>
    rw [heq] at h
    exact h
  next b1 heq =>
    rw [heq] at h
    simp at h

/-- If the win-now probe of `astar` misses and the block-now probe hits,
`astar` returns the blocking index. -/
theorem astar_phase2 (b : Board) (j : Fin 9)
    (h1 : (try_win b Cell.O natOrder).1 = none)
    (h2s : (try_win b Cell.X natOrder).1 = some j) : (astar b).1 = some j := by
  unfold astar
  split
  next i b1 heq =>
    rw [heq] at h1
    simp at h1
  next b1 heq =>
    have hb : b1 = b := by
      have hB := try_win_board Cell.O natOrder b
      rw [heq] at hB
      exact hB
    subst b1
    split
    next i b2 heq2 =>
      rw [heq2] at h2s
      exact h2s
    next b2 heq2 =>
      rw [heq2] at h2s
      simp at h2s

/-- When both probes of `astar` miss, `astar` returns the second component of
the head of the descending-sorted score list. -/
theorem astar_fallback (b : Board)
    (h1 : (try_win b Cell.O natOrder).1 = none)
    (h2 : (try_win b Cell.X natOrder).1 = none) :
    (astar b).1 = (List.insertionSort scoreGe (scores b)).head?.map fun x => x.2 := by
  unfold astar
  split
  next i b1 heq =>
    rw [heq] at h1
    simp at h1
  next b1 heq =>
    have hb : b1 = b := by
      have hB := try_win_board Cell.O natOrder b
      rw [heq] at hB
      exact hB
    subst b1
    split
    next i b2 heq2 =>
      rw [heq2] at h2
      simp at h2
    next b2 heq2 =>
      have hb2 : b2 = b := by
        have hB := try_win_board Cell.X natOrder b
        rw [heq2] at hB
        exact hB
      subst b2
      cases e3 : List.insertionSort scoreGe (scores b) with
      | nil => rfl
      | cons hd tl =>
        obtain ⟨s, i⟩ := hd
        rfl

theorem mem_scores {b : Board} {x : Nat × Fin 9} :
    x ∈ scores b ↔ b x.2 = Cell.empty ∧ x.1 = position_value.getD x.2.val 0 := by
  obtain ⟨s, i⟩ := x
  unfold scores
  simp only [List.mem_map, List.mem_filter, List.mem_finRange, true_and,
    decide_eq_true_eq, Prod.mk.injEq]
  constructor
  · rintro ⟨k, hk, rfl, rfl⟩
    exact ⟨hk, rfl⟩
  · rintro ⟨h1, rfl⟩
    exact ⟨i, h1, rfl, rfl⟩

/-- The comparison `scoreGe` spelled out on explicit pairs. -/
theorem scoreGe_iff (s1 s2 : Nat) (i1 i2 : Fin 9) :
    scoreGe (s1, i1) (s2, i2) ↔ s2 < s1 ∨ (s1 = s2 ∧ i2.val ≤ i1.val) :=
  Iff.rfl

/-- The `bfs` strategy returns the board exactly as it found it. -/
theorem bfs_keeps_board (b : Board) : (bfs b).2 = b := by
  unfold bfs
  split
  next i b1 heq =>
    have hB := try_win_board Cell.O natOrder b
    rw [heq] at hB
    exact hB
  next b1 heq =>
    have hb : b1 = b := by
      have hB := try_win_board Cell.O natOrder b
      rw [heq] at hB
      exact hB
    subst b1
    split
    next i b2 heq2 =>
      have hB := try_win_board Cell.X natOrder b
      rw [heq2] at hB
      exact hB
    next b2 heq2 =>
      have hb2 : b2 = b := by
        have hB := try_win_board Cell.X natOrder b
        rw [heq2] at hB
        exact hB
      subst b2
      by_cases h4 : b 4 = Cell.empty
      · rw [if_pos h4]
      · rw [if_neg h4]
        cases corners.find? fun c => decide (b c = Cell.empty) with
        | some c => rfl
        | none =>
          cases natOrder.find? fun i => decide (b i = Cell.empty) with
          | some i => rfl
          | none => rfl

/-- The `dfs` strategy returns the board exactly as it found it. -/
theorem dfs_keeps_board (b : Board) : (dfs b).2 = b := by
  unfold dfs
  split
  next i b1 heq =>
    have hB := try_win_board Cell.O priority b
    rw [heq] at hB
    exact hB
  next b1 heq =>
    have hb : b1 = b := by
      have hB := try_win_board Cell.O priority b
      rw [heq] at hB
      exact hB
    subst b1
    split
    next i b2 heq2 =>
      have hB := try_win_board Cell.X priority b
      rw [heq2] at hB
      exact hB
    next b2 heq2 =>
      have hb2 : b2 = b := by
        have hB := try_win_board Cell.X priority b
        rw [heq2] at hB
        exact hB
      subst b2
      cases priority.find? fun i => decide (b i = Cell.empty) with
      | some i => rfl
      | none => rfl

/-- The `astar` strategy returns the board exactly as it found it. -/
theorem astar_keeps_board (b : Board) : (astar b).2 = b := by
  unfold astar
  split
  next i b1 heq =>
    have hB := try_win_board Cell.O natOrder b
    rw [heq] at hB
    exact hB
  next b1 heq =>
    have hb : b1 = b := by
      have hB := try_win_board Cell.O natOrder b
      rw [heq] at hB
      exact hB
    subst b1
    split
    next i b2 heq2 =>
      have hB := try_win_board Cell.X natOrder b
      rw [heq2] at hB
      exact hB
    next b2 heq2 =>
      have hb2 : b2 = b := by
        have hB := try_win_board Cell.X natOrder b
        rw [heq2] at hB
        exact hB
      subst b2
      cases List.insertionSort scoreGe (scores b) with
      | nil => rfl
      | cons hd tl =>
        obtain ⟨s, i⟩ := hd
        rfl

/-! Concrete boards used as witnesses and counterexamples. -/

/-- The board with a single human mark in the center; both probes miss and the
heuristic fallback of `astar` faces a weight tie among the four corners. -/
def centerX : Board :=
  boardOfCells [Cell.empty, Cell.empty, Cell.empty, Cell.empty, Cell.X,
    Cell.empty, Cell.empty, Cell.empty, Cell.empty]

/-- The board `[O, O, , X, X, , , , ]` of the spec: the computer wins at 2. -/
def winBoard : Board :=
  boardOfCells [Cell.O, Cell.O, Cell.empty, Cell.X, Cell.X, Cell.empty,
    Cell.empty, Cell.empty, Cell.empty]

/-- The board `[X, X, , , , , , , ]` of the spec: the human threatens at 2. -/
def blockBoard : Board :=
  boardOfCells [Cell.X, Cell.X, Cell.empty, Cell.empty, Cell.empty,
    Cell.empty, Cell.empty, Cell.empty, Cell.empty]

/-- Modelled from the spec: the index the specification says the heuristic
fallback picks, namely the empty index of maximum static weight with ties
broken by the lowest such index. -/
def spec_heuristic_choice (b : Board) : Option (Fin 9) :=
  ((List.finRange 9).filter fun i => decide (b i = Cell.empty)).find? fun i =>
    ((List.finRange 9).filter fun k => decide (b k = Cell.empty)).all fun k =>
      decide (position_value.getD k.val 0 ≤ position_value.getD i.val 0)

/-! Claim theorems. -/

/-- C2: on every board with exactly one empty index whose occupation by the
computer mark O completes a winning line, each of the three strategies (bfs,
dfs, astar) returns that winning index. -/
theorem strategies_return_unique_win (b : Board) (w : Fin 9)
    (hemp : b w = Cell.empty)
    (hwin : is_winner (place b w Cell.O) Cell.O = true)
    (huniq : ∀ i : Fin 9, b i = Cell.empty →
      is_winner (place b i Cell.O) Cell.O = true → i = w) :
    (bfs b).1 = some w ∧ (dfs b).1 = some w ∧ (astar b).1 = some w := by
  obtain ⟨j, hj, hj2, hj3⟩ :=
    try_win_finds b Cell.O natOrder w (natOrder_mem w) hemp hwin
  have hjw : j = w := huniq j hj2 hj3
  subst j
  obtain ⟨k, hk, hk2, hk3⟩ :=
    try_win_finds b Cell.O priority w (priority_mem w) hemp hwin
  have hkw : k = w := huniq k hk2 hk3
  subst k
  exact ⟨bfs_phase1 b w hj, dfs_phase1 b w hk, astar_phase1 b w hj⟩

/-- Witness for C2: on the board [O, O, , X, X, , , , ] all three strategies
return the winning index 2. -/
theorem strategies_return_unique_win_witness :
    (bfs winBoard).1 = some 2 ∧ (dfs winBoard).1 = some 2 ∧
    (astar winBoard).1 = some 2 :=
  strategies_return_unique_win winBoard 2 (by decide) (by decide) (by decide)

/-- C3: on every board where no empty index gives the computer an immediate
win but some empty index would complete a human winning line, each strategy
returns a blocking index: an empty index whose occupation by the human mark X
would complete a human winning line. -/
theorem strategies_block_threat (b : Board)
    (hno : ∀ i : Fin 9, b i = Cell.empty →
      is_winner (place b i Cell.O) Cell.O = false)
    (w : Fin 9) (hemp : b w = Cell.empty)
    (hwin : is_winner (place b w Cell.X) Cell.X = true) :
    (∃ j, (bfs b).1 = some j ∧ b j = Cell.empty ∧
      is_winner (place b j Cell.X) Cell.X = true) ∧
    (∃ j, (dfs b).1 = some j ∧ b j = Cell.empty ∧
      is_winner (place b j Cell.X) Cell.X = true) ∧
    (∃ j, (astar b).1 = some j ∧ b j = Cell.empty ∧
      is_winner (place b j Cell.X) Cell.X = true) := by
  have h1n : (try_win b Cell.O natOrder).1 = none :=
    (try_win_none Cell.O natOrder b).mpr fun i _ hie => hno i hie
  have h1p : (try_win b Cell.O priority).1 = none :=
    (try_win_none Cell.O priority b).mpr fun i _ hie => hno i hie
  obtain ⟨j, hj, hj2, hj3⟩ :=
    try_win_finds b Cell.X natOrder w (natOrder_mem w) hemp hwin
  obtain ⟨k, hk, hk2, hk3⟩ :=
    try_win_finds b Cell.X priority w (priority_mem w) hemp hwin
  exact ⟨⟨j, bfs_phase2 b j h1n hj, hj2, hj3⟩,
         ⟨k, dfs_phase2 b k h1p hk, hk2, hk3⟩,
         ⟨j, astar_phase2 b j h1n hj, hj2, hj3⟩⟩

/-- Witness for C3: on the board [X, X, , , , , , , ] all three strategies
return a blocking index. -/
theorem strategies_block_threat_witness :
    (∃ j, (bfs blockBoard).1 = some j ∧ blockBoard j = Cell.empty ∧
      is_winner (place blockBoard j Cell.X) Cell.X = true) ∧
    (∃ j, (dfs blockBoard).1 = some j ∧ blockBoard j = Cell.empty ∧
      is_winner (place blockBoard j Cell.X) Cell.X = true) ∧
    (∃ j, (astar blockBoard).1 = some j ∧ blockBoard j = Cell.empty ∧
      is_winner (place blockBoard j Cell.X) Cell.X = true) :=
  strategies_block_threat blockBoard (by decide) 2 (by decide) (by decide)

/-- C4: every strategy call leaves the board exactly as it found it: every
hypothetical placement of the probes is undone on every control path, and the
fallback phases perform no placement. -/
theorem strategies_preserve_board (b : Board) :
    (bfs b).2 = b ∧ (dfs b).2 = b ∧ (astar b).2 = b :=
  ⟨bfs_keeps_board b, dfs_keeps_board b, astar_keeps_board b⟩

/-- C5: `is_winner(m)` is true exactly when one of the eight fixed lines,
rows 012, 345, 678, columns 036, 147, 258, diagonals 048, 246, has all three
of its cells occupied by `m`. -/
theorem is_winner_spec (b : Board) (m : Cell) :
    is_winner b m = true ↔
      ((b 0 = m ∧ b 1 = m ∧ b 2 = m) ∨ (b 3 = m ∧ b 4 = m ∧ b 5 = m) ∨
       (b 6 = m ∧ b 7 = m ∧ b 8 = m) ∨ (b 0 = m ∧ b 3 = m ∧ b 6 = m) ∨
       (b 1 = m ∧ b 4 = m ∧ b 7 = m) ∨ (b 2 = m ∧ b 5 = m ∧ b 8 = m) ∨
       (b 0 = m ∧ b 4 = m ∧ b 8 = m) ∨ (b 2 = m ∧ b 4 = m ∧ b 6 = m)) := by
  unfold is_winner wins
  simp [List.any_cons, List.all_cons, and_assoc]

/-- C6: the status evaluation yields HumanWon iff X has a line; else
ComputerWon iff O has a line; else Draw iff the board is full; else
InProgress. In particular the human-win test precedes the computer-win test,
and a full board with no winner is Draw, never InProgress. -/
theorem check_end_spec (b : Board) :
    (check_end b = GameStatus.HumanWon ↔ is_winner b Cell.X = true) ∧
    (check_end b = GameStatus.ComputerWon ↔
      is_winner b Cell.X = false ∧ is_winner b Cell.O = true) ∧
    (check_end b = GameStatus.Draw ↔
      is_winner b Cell.X = false ∧ is_winner b Cell.O = false ∧
      isFull b = true) ∧
    (check_end b = GameStatus.InProgress ↔
      is_winner b Cell.X = false ∧ is_winner b Cell.O = false ∧
      isFull b = false) := by
  unfold check_end
  cases hX : is_winner b Cell.X <;> cases hO : is_winner b Cell.O <;>
    cases hF : isFull b <;> simp

/-- C7: `player_click` is a silent no-op, leaving the state unchanged and
scheduling no computer move, whenever the game is over or the clicked cell is
occupied; otherwise it places the human mark X at the clicked index. -/
theorem player_click_spec (s : GameState) (pos : Fin 9) :
    ((s.game_over = true ∨ s.board pos ≠ Cell.empty) →
      player_click s pos = (s, false)) ∧
    (s.game_over = false → s.board pos = Cell.empty →
      (player_click s pos).1.board = place s.board pos Cell.X) := by
  constructor
  · intro h
    unfold player_click
    rw [if_neg]
    rintro ⟨hb, hg⟩
    rcases h with h | h
    · rw [h] at hg
      cases hg
    · exact h hb
  · intro hg hb
    unfold player_click
    rw [if_pos ⟨hb, hg⟩]

/-- Witness for C7: clicking on a finished game changes nothing and schedules
no computer move. -/
theorem player_click_spec_witness :
    player_click ⟨emptyBoard, true⟩ 0 = (⟨emptyBoard, true⟩, false) :=
  (player_click_spec ⟨emptyBoard, true⟩ 0).1 (Or.inl rfl)

/-- Counterexample to C1 as stated: on the board with only the center taken
by X, both probes miss, the lowest empty index of maximum weight is 0, yet
`astar` returns 8 — the sort of the `(score, index)` pairs in descending
order puts the highest index first among equal scores. -/
theorem astar_tie_break_counterexample :
    (try_win centerX Cell.O natOrder).1 = none ∧
    (try_win centerX Cell.X natOrder).1 = none ∧
    spec_heuristic_choice centerX = some 0 ∧
    (astar centerX).1 = some 8 ∧
    (astar centerX).1 ≠ spec_heuristic_choice centerX := by decide

/-- C1 (amended): when the heuristic fallback of `astar` is reached and
returns an index, that index is an empty index of maximum static weight
(center 4, corners 3, edges 2), and when several empty indices share that
maximum weight the returned index is the highest such index. -/
theorem astar_fallback_heuristic_max (b : Board) (j : Fin 9)
    (h1 : (try_win b Cell.O natOrder).1 = none)
    (h2 : (try_win b Cell.X natOrder).1 = none)
    (hj : (astar b).1 = some j) :
    b j = Cell.empty ∧ ∀ i : Fin 9, b i = Cell.empty →
      position_value.getD i.val 0 ≤ position_value.getD j.val 0 ∧
      (position_value.getD i.val 0 = position_value.getD j.val 0 →
        i.val ≤ j.val) := by
  rw [astar_fallback b h1 h2] at hj
  cases e3 : List.insertionSort scoreGe (scores b) with
  | nil =>
    rw [e3] at hj
    simp at hj
  | cons hd tl =>
    obtain ⟨s, j0⟩ := hd
    rw [e3] at hj
    have hj0 : j0 = j := by simpa using hj
    subst j0
    have hmem : (s, j) ∈ scores b := by
      have hm : (s, j) ∈ List.insertionSort scoreGe (scores b) := by
        rw [e3]
        exact List.mem_cons_self _ _
      exact (List.mem_insertionSort scoreGe).mp hm
    obtain ⟨hempty0, hs0⟩ := mem_scores.mp hmem
    have hempty : b j = Cell.empty := hempty0
    have hs : s = position_value.getD j.val 0 := hs0
    subst s
    refine ⟨hempty, fun i hi => ?_⟩
    have hmi : (position_value.getD i.val 0, i) ∈ scores b :=
      mem_scores.mpr ⟨hi, rfl⟩
    have hmi2 : (position_value.getD i.val 0, i) ∈
        List.insertionSort scoreGe (scores b) :=
      (List.mem_insertionSort scoreGe).mpr hmi
    rw [e3] at hmi2
    have hsorted := List.sorted_insertionSort scoreGe (scores b)
    rw [e3] at hsorted
    have hge : scoreGe (position_value.getD j.val 0, j)
        (position_value.getD i.val 0, i) := by
      rcases List.mem_cons.mp hmi2 with heq | hm2
      · rw [heq]
        rcases total_of scoreGe (position_value.getD j.val 0, j)
          (position_value.getD j.val 0, j) with h | h
        · exact h
        · exact h
      · exact List.rel_of_sorted_cons hsorted _ hm2
    rw [scoreGe_iff] at hge
    constructor
    · rcases hge with h | ⟨h, h5⟩
      · omega
      · omega
    · intro he
      rcases hge with h | ⟨h, h5⟩
      · omega
      · omega

/-- Witness for the amended C1: on the board with only the center taken by X,
`astar` returns 8, an empty corner of maximum weight and the highest among
the equal-weight corners. -/
theorem astar_fallback_heuristic_max_witness :
    centerX 8 = Cell.empty ∧ ∀ i : Fin 9, centerX i = Cell.empty →
      position_value.getD i.val 0 ≤ position_value.getD (8 : Fin 9).val 0 ∧
      (position_value.getD i.val 0 = position_value.getD (8 : Fin 9).val 0 →
        i.val ≤ (8 : Fin 9).val) :=
  astar_fallback_heuristic_max centerX 8 (by decide) (by decide) (by decide)

/-- C8: each strategy returns the Python `None` exactly when the board has no
empty cell; equivalently, on any board with an empty cell every strategy
returns an index. -/
theorem strategies_none_iff_full (b : Board) :
    ((bfs b).1 = none ↔ isFull b = true) ∧
    ((dfs b).1 = none ↔ isFull b = true) ∧
    ((astar b).1 = none ↔ isFull b = true) := by
  have bfs_fwd : (bfs b).1 = none → isFull b = true := by
    intro h
    cases e1 : (try_win b Cell.O natOrder).1 with
    | some j =>
      rw [bfs_phase1 b j e1] at h
      cases h
    | none =>
      cases e2 : (try_win b Cell.X natOrder).1 with
      | some j =>
        rw [bfs_phase2 b j e1 e2] at h
        cases h
      | none =>
        rw [bfs_fallback b e1 e2] at h
        by_cases h4 : b 4 = Cell.empty
        · rw [if_pos h4] at h
          cases h
        · rw [if_neg h4] at h
          cases e3 : corners.find? fun c => decide (b c = Cell.empty) with
          | some c =>
            rw [e3] at h
            cases h
          | none =>
            rw [e3] at h
            have h5 : (natOrder.find? fun i => decide (b i = Cell.empty)) = none := h
            rw [isFull_iff]
            intro i
            have h6 := List.find?_eq_none.mp h5 i (natOrder_mem i)
            simpa using h6
  have dfs_fwd : (dfs b).1 = none → isFull b = true := by
    intro h
    cases e1 : (try_win b Cell.O priority).1 with
    | some j =>
      rw [dfs_phase1 b j e1] at h
      cases h
    | none =>
      cases e2 : (try_win b Cell.X priority).1 with
      | some j =>
        rw [dfs_phase2 b j e1 e2] at h
        cases h
      | none =>
        rw [dfs_fallback b e1 e2] at h
        rw [isFull_iff]
        intro i
        have h6 := List.find?_eq_none.mp h i (priority_mem i)
        simpa using h6
  have astar_fwd : (astar b).1 = none → isFull b = true := by
    intro h
    cases e1 : (try_win b Cell.O natOrder).1 with
    | some j =>
      rw [astar_phase1 b j e1] at h
      cases h
    | none =>
      cases e2 : (try_win b Cell.X natOrder).1 with
      | some j =>
        rw [astar_phase2 b j e1 e2] at h
        cases h
      | none =>
        rw [astar_fallback b e1 e2] at h
        rw [Option.map_eq_none', List.head?_eq_none_iff] at h
        have hsc : scores b = [] := by
          have hperm := List.perm_insertionSort scoreGe (scores b)
          rw [h] at hperm
          have hlen := hperm.length_eq
          exact List.eq_nil_of_length_eq_zero (by simpa using hlen.symm)
        unfold scores at hsc
        rw [List.map_eq_nil_iff, List.filter_eq_nil_iff] at hsc
        rw [isFull_iff]
        intro i
        have h6 := hsc i (List.mem_finRange i)
        simpa using h6
  by_cases hf : isFull b = true
  · have hful := isFull_iff.mp hf
    have hO : ∀ ord, (try_win b Cell.O ord).1 = none := fun ord =>
      (try_win_none Cell.O ord b).mpr fun i _ hie => absurd hie (hful i)
    have hX : ∀ ord, (try_win b Cell.X ord).1 = none := fun ord =>
      (try_win_none Cell.X ord b).mpr fun i _ hie => absurd hie (hful i)
    have hfind : ∀ ord : List (Fin 9),
        (ord.find? fun i => decide (b i = Cell.empty)) = none := fun ord =>
      List.find?_eq_none.mpr fun i _ => by simpa using hful i
    have hsc : scores b = [] := by
      unfold scores
      rw [List.map_eq_nil_iff, List.filter_eq_nil_iff]
      intro i _
      simpa using hful i
    refine ⟨⟨fun _ => hf, fun _ => ?_⟩, ⟨fun _ => hf, fun _ => ?_⟩,
      ⟨fun _ => hf, fun _ => ?_⟩⟩
    · rw [bfs_fallback b (hO natOrder) (hX natOrder), if_neg (hful 4),
        hfind corners, hfind natOrder]
    · rw [dfs_fallback b (hO priority) (hX priority), hfind priority]
    · rw [astar_fallback b (hO natOrder) (hX natOrder), hsc]
      rfl
  · exact ⟨⟨fun h => absurd (bfs_fwd h) hf, fun h => absurd h hf⟩,
      ⟨fun h => absurd (dfs_fwd h) hf, fun h => absurd h hf⟩,
      ⟨fun h => absurd (astar_fwd h) hf, fun h => absurd h hf⟩⟩

/-- C9: in every state reachable from the empty board by alternating legal
play, at most one of the two marks has a winning line. -/
theorem reachable_at_most_one_winner (b : Board) (m : Cell)
    (h : Reachable b m) :
    ¬(is_winner b Cell.X = true ∧ is_winner b Cell.O = true) := by
  induction h with
  | init => decide
  | move b0 m0 i hr hprog hemp ih =>
    rintro ⟨hX, hO⟩
    obtain ⟨hnX, hnO⟩ := in_progress_no_winner hprog
    by_cases hm : m0 = Cell.X
    · subst m0
      have hOb := is_winner_place_of_ne (show Cell.O ≠ Cell.X by decide) hO
      rw [hnO] at hOb
      cases hOb
    · have hXb := is_winner_place_of_ne (fun hc => hm hc.symm) hX
      rw [hnX] at hXb
      cases hXb

/-- Witness for C9: the board after the legal opening move X at index 0 is
reachable and has at most one winner. -/
theorem reachable_at_most_one_winner_witness :
    ¬(is_winner (place emptyBoard 0 Cell.X) Cell.X = true ∧
      is_winner (place emptyBoard 0 Cell.X) Cell.O = true) :=
  reachable_at_most_one_winner (place emptyBoard 0 Cell.X) (other Cell.X)
    (Reachable.move emptyBoard Cell.X 0 Reachable.init (by decide) (by decide))

/-- Whenever `bfs` returns an index, that cell is empty on the given board. -/
theorem bfs_some_empty (b : Board) (i : Fin 9) (h : (bfs b).1 = some i) :
    b i = Cell.empty := by
  cases e1 : (try_win b Cell.O natOrder).1 with
  | some j =>
    rw [bfs_phase1 b j e1] at h
    obtain rfl : j = i := Option.some.inj h
    exact (try_win_some Cell.O natOrder b j e1).2.1
  | none =>
    cases e2 : (try_win b Cell.X natOrder).1 with
    | some j =>
      rw [bfs_phase2 b j e1 e2] at h
      obtain rfl : j = i := Option.some.inj h
      exact (try_win_some Cell.X natOrder b j e2).2.1
    | none =>
      rw [bfs_fallback b e1 e2] at h
      by_cases h4 : b 4 = Cell.empty
      · rw [if_pos h4] at h
        obtain rfl : (4 : Fin 9) = i := Option.some.inj h
        exact h4
      · rw [if_neg h4] at h
        cases e3 : corners.find? fun c => decide (b c = Cell.empty) with
        | some c =>
          rw [e3] at h
          obtain rfl : c = i := Option.some.inj h
          simpa using List.find?_some e3
        | none =>
          rw [e3] at h
          have h5 : (natOrder.find? fun k => decide (b k = Cell.empty))
              = some i := h
          simpa using List.find?_some h5

/-- Whenever `dfs` returns an index, that cell is empty on the given board. -/
theorem dfs_some_empty (b : Board) (i : Fin 9) (h : (dfs b).1 = some i) :
    b i = Cell.empty := by
  cases e1 : (try_win b Cell.O priority).1 with
  | some j =>
    rw [dfs_phase1 b j e1] at h
    obtain rfl : j = i := Option.some.inj h
    exact (try_win_some Cell.O priority b j e1).2.1
  | none =>
    cases e2 : (try_win b Cell.X priority).1 with
    | some j =>
      rw [dfs_phase2 b j e1 e2] at h
      obtain rfl : j = i := Option.some.inj h
      exact (try_win_some Cell.X priority b j e2).2.1
    | none =>
      rw [dfs_fallback b e1 e2] at h
      simpa using List.find?_some h

/-- Whenever `astar` returns an index, that cell is empty on the given board. -/
theorem astar_some_empty (b : Board) (i : Fin 9) (h : (astar b).1 = some i) :
    b i = Cell.empty := by
  cases e1 : (try_win b Cell.O natOrder).1 with
  | some j =>
    rw [astar_phase1 b j e1] at h
    obtain rfl : j = i := Option.some.inj h
    exact (try_win_some Cell.O natOrder b j e1).2.1
  | none =>
    cases e2 : (try_win b Cell.X natOrder).1 with
    | some j =>
      rw [astar_phase2 b j e1 e2] at h
      obtain rfl : j = i := Option.some.inj h
      exact (try_win_some Cell.X natOrder b j e2).2.1
    | none =>
      rw [astar_fallback b e1 e2] at h
      cases e3 : List.insertionSort scoreGe (scores b) with
      | nil =>
        rw [e3] at h
        simp at h
      | cons hd tl =>
        obtain ⟨s, j⟩ := hd
        rw [e3] at h
        obtain rfl : j = i := by simpa using h
        have hmem : (s, j) ∈ scores b := by
          have hm : (s, j) ∈ List.insertionSort scoreGe (scores b) := by
            rw [e3]
            exact List.mem_cons_self _ _
          exact (List.mem_insertionSort scoreGe).mp hm
        exact (mem_scores.mp hmem).1

/-- C10: whenever any of the three strategies returns an index, the index is
in range 0..8 and the cell at that index is empty on the board the strategy
was given: no strategy ever selects an occupied cell. -/
theorem strategies_choose_empty (b : Board) (i : Fin 9) :
    ((bfs b).1 = some i → i.val < 9 ∧ b i = Cell.empty) ∧
    ((dfs b).1 = some i → i.val < 9 ∧ b i = Cell.empty) ∧
    ((astar b).1 = some i → i.val < 9 ∧ b i = Cell.empty) :=
  ⟨fun h => ⟨i.isLt, bfs_some_empty b i h⟩,
   fun h => ⟨i.isLt, dfs_some_empty b i h⟩,
   fun h => ⟨i.isLt, astar_some_empty b i h⟩⟩

/-- Witness for C10: on the empty board each strategy returns index 4, which
is in range and empty. -/
theorem strategies_choose_empty_witness :
    (4 : Fin 9).val < 9 ∧ emptyBoard 4 = Cell.empty :=
  (strategies_choose_empty emptyBoard 4).1 (by decide)

end TicTacToe
